import Mathlib

/-!
# Ghost_Packet: a shallow embedding of `ghost_packet.go`

The development embeds the method resolver (`detectBestMethod`,
`chooseBestMethod`), the request executor (`sendRequest`), the run counters,
the dispatch loop of `startLoadTest` and the method set-up of `main`, and
proves properties of them.

Conventions.
* A Go `string` is a Lean `String`: a sequence of Unicode code points (the
  source's strings holding valid UTF-8 text).
* The network and the `net/http` library are an explicit environment `Env`.
* A run-time panic of the Go program is an explicit result.
* An `int` or `int64` value is an integer; the arithmetic on them wraps
  into the `int64` range (a 64-bit platform).
-/

namespace GhostPacket

/-! ## Method selection -/

/-- The closure `has` of `chooseBestMethod`: a linear scan of `methods`
for the value `m`. -/
def has : List String → String → Bool
  | [], _ => false
  | v :: vs, m => if v = m then true else has vs m

/-- The function `chooseBestMethod` of the source: the `switch` over
`has("POST")`, `has("GET")`, `has("HEAD")`, then `methods[0]` guarded by
`len(methods) > 0`, then the default `"GET"`. -/
def chooseBestMethod (methods : List String) : String :=
  if has methods "POST" then "POST"
  else if has methods "GET" then "GET"
  else if has methods "HEAD" then "HEAD"
  else
    match methods with
    | m :: _ => m
    | [] => "GET"

/-! ## Library string functions used by the resolver -/

/-- The predicate `unicode.IsSpace` behind `strings.TrimSpace`: the code
points with the Unicode White_Space property. -/
def isSpace (c : Char) : Bool :=
  let n := c.toNat
  (9 ≤ n && n ≤ 13) || n == 32 || n == 0x85 || n == 0xA0 || n == 0x1680 ||
    (0x2000 ≤ n && n ≤ 0x200A) || n == 0x2028 || n == 0x2029 || n == 0x202F ||
    n == 0x205F || n == 0x3000

/-- Drop the leading white space (`strings.TrimLeftFunc` with `IsSpace`). -/
def trimLeft : List Char → List Char
  | [] => []
  | c :: cs => if isSpace c then trimLeft cs else c :: cs

/-- Drop the trailing white space (`strings.TrimRightFunc` with `IsSpace`). -/
def trimRight (l : List Char) : List Char :=
  (trimLeft l.reverse).reverse

/-- The library function `strings.TrimSpace`. -/
def stringsTrimSpace (s : String) : String :=
  ⟨trimRight (trimLeft s.data)⟩

/-- The substrings of `l` between the occurrences of the one-character
separator `sep`; the empty input gives one empty substring. -/
def splitChars (sep : Char) : List Char → List (List Char)
  | [] => [[]]
  | c :: cs =>
    if c = sep then [] :: splitChars sep cs
    else
      match splitChars sep cs with
      | p :: ps => (c :: p) :: ps
      | [] => [[c]]

/-- The library function `strings.Split` for a one-character separator. -/
def stringsSplit (s : String) (sep : Char) : List String :=
  (splitChars sep s.data).map String.mk

/-! ## The environment: `net/http` and the network -/

/-- An `http.Header`: the key/value pairs of the map, one pair per key. -/
abbrev Header := List (String × String)

/-- The method `Header.Set`: the value of `key` is replaced. Every key the
program sets is already in canonical MIME form, so the key is stored as
written. -/
def headerSet (h : Header) (key value : String) : Header :=
  (key, value) :: h.filter (fun kv => kv.1 != key)

/-- An `*http.Request` as far as the program builds it: `body = none` is
the `nil` body. -/
structure Request where
  method : String
  url : String
  body : Option String
  header : Header
  deriving DecidableEq, Repr

/-- An `*http.Response` as far as the program reads it: the status code
and `resp.Header.Get("Allow")`, which is `""` for an absent header. -/
structure Response where
  statusCode : Int
  allow : String
  deriving DecidableEq, Repr

/-- What the program cannot decide by itself: whether
`http.NewRequest(method, url, _)` returns a nil error, and what
`client.Do(req)` returns (`none` for a non-nil error). -/
structure Env where
  newRequestOk : String → String → Bool
  clientDo : Request → Option Response

/-- The library function `http.NewRequest`: `none` is the pair
`(nil, err)`; an empty method stands for `"GET"`. -/
def newRequest (env : Env) (method url : String) (body : Option String) : Option Request :=
  if env.newRequestOk method url then
    some { method := if method = "" then "GET" else method, url := url, body := body, header := [] }
  else none

/-! ## Method detection -/

/-- The three results of `detectBestMethod`: a chosen method with the
supported set and a nil error; the error `no supported method detected`;
or a nil-pointer panic, when `client.Do` is handed the nil request of a
failed `http.NewRequest`. -/
inductive DetectResult
  | ok (method : String) (supported : List String)
  | err
  | crashed
  deriving DecidableEq, Repr

/-- The fall-back loop of `detectBestMethod` over the remaining methods.
The error of `http.NewRequest` is discarded (`req, _ :=`), so a failed
construction hands a nil request to `client.Do`. -/
def probeLoop (env : Env) (url : String) : List String → DetectResult
  | [] => DetectResult.err
  | m :: ms =>
    match newRequest env m url none with
    | none => DetectResult.crashed
    | some req =>
      match env.clientDo req with
      | some _ => DetectResult.ok m [m]
      | none => probeLoop env url ms

/-- The function `detectBestMethod` of the source. -/
def detectBestMethod (env : Env) (url : String) : DetectResult :=
  let fallback := probeLoop env url ["HEAD", "GET", "POST"]
  match newRequest env "OPTIONS" url none with
  | none => fallback
  | some req =>
    match env.clientDo req with
    | none => fallback
    | some resp =>
      if resp.allow ≠ "" then
        let methods := (stringsSplit resp.allow ',').map stringsTrimSpace
        DetectResult.ok (chooseBestMethod methods) methods
      else fallback

/-! ## Run counters and the request executor -/

/-- The three global counters `totalRequests`, `successfulHits`,
`unreachableHits`, each an `int64`. -/
structure Counters where
  totalRequests : Int
  successfulHits : Int
  unreachableHits : Int
  deriving DecidableEq, Repr

/-- The value of an integer as an `int64` (two's complement wrap-around). -/
def wrapInt64 (v : Int) : Int :=
  (v + 2 ^ 63) % 2 ^ 64 - 2 ^ 63

/-- The library function `atomic.AddInt64`: the new value of the counter. -/
def atomicAddInt64 (x delta : Int) : Int :=
  wrapInt64 (x + delta)

/-- The request of `sendRequest` as handed to `client.Do` (lines 132 to
152): `none` when `http.NewRequest` fails. `hdrs` is the sequence of
entries in which the `range` loop visits the map of `getRandomHeaders`
(Go leaves the order of a map iteration open). -/
def buildRequest (env : Env) (url method body : String) (hdrs : Header) : Option Request :=
  let made : Option Request :=
    if method = "POST" ∨ method = "PUT" ∨ method = "PATCH" then
      (newRequest env method url (some body)).map fun req =>
        { req with header := headerSet req.header "Content-Type" "application/json" }
    else newRequest env method url none
  made.map fun req =>
    hdrs.foldl (fun r kv => { r with header := headerSet r.header kv.1 kv.2 }) req

/-- The function `sendRequest` of the source, as a transformer of the
counters (the printed status line is left out). -/
def sendRequest (env : Env) (c : Counters) (url method body : String) (hdrs : Header) :
    Counters :=
  match buildRequest env url method body hdrs with
  | none => { c with unreachableHits := atomicAddInt64 c.unreachableHits 1 }
  | some req =>
    match env.clientDo req with
    | none => { c with unreachableHits := atomicAddInt64 c.unreachableHits 1 }
    | some resp =>
      let c1 := { c with totalRequests := atomicAddInt64 c.totalRequests 1 }
      if 200 ≤ resp.statusCode ∧ resp.statusCode < 400 then
        { c1 with successfulHits := atomicAddInt64 c1.successfulHits 1 }
      else c1

/-- One call of `sendRequest` during a run: the state of the network at
the call and the arguments. -/
structure Call where
  env : Env
  url : String
  method : String
  body : String
  hdrs : Header

/-- The counters after a sequence of calls of `sendRequest`. -/
def runCalls (c : Counters) (calls : List Call) : Counters :=
  calls.foldl (fun acc k => sendRequest k.env acc k.url k.method k.body k.hdrs) c

/-- The counters at the start of the program. -/
def zeroCounters : Counters :=
  { totalRequests := 0, successfulHits := 0, unreachableHits := 0 }

/-! ## The dispatch loop of `startLoadTest` -/

/-- The capacity of `requestQueue := make(chan string, rps*workers)`: the
product is computed on the `int` operands and wraps around; `none` is the
panic of `make` on a size that is negative or above `limit`, the largest
buffer size the runtime accepts (a constant of the platform). -/
def requestQueueCap (limit : Nat) (rps workers : Int) : Option Nat :=
  if wrapInt64 (rps * workers) < 0 then none
  else if (limit : Int) < wrapInt64 (rps * workers) then none
  else some (wrapInt64 (rps * workers)).toNat

/-- The state of one tick of the dispatch goroutine: the length of
`requestQueue` and the numbers of sends that succeeded and that fell to
the `default` case. -/
structure TickState where
  len : Nat
  enqueued : Nat
  dropped : Nat
  deriving DecidableEq, Repr

/-- One `select { case requestQueue <- url: default: }` on a channel of
capacity `cap`: the send succeeds when the buffer has room; on an
unbuffered channel (capacity 0) it succeeds when a worker is `waiting` in
its receive and takes the token at once. -/
def trySend (cap : Nat) (waiting : Bool) (s : TickState) : TickState :=
  if s.len < cap then { s with len := s.len + 1, enqueued := s.enqueued + 1 }
  else if cap = 0 ∧ waiting = true then { s with enqueued := s.enqueued + 1 }
  else { s with dropped := s.dropped + 1 }

/-- The loop `for i := 0; i < workers; i++` of one tick, at iteration `i`
with `k` iterations to go. The workers run concurrently: before the send
of iteration `i` they receive `recvs i` tokens (as far as the queue holds
them), and `waiting i` tells whether one of them then waits in its
receive. -/
def tickLoop (cap : Nat) (recvs : Nat → Nat) (waiting : Nat → Bool) :
    Nat → Nat → TickState → TickState
  | 0, _, s => s
  | k + 1, i, s =>
    tickLoop cap recvs waiting k (i + 1)
      (trySend cap (waiting i) { s with len := s.len - recvs i })

/-- One tick of the dispatch goroutine of `startLoadTest` on a queue of
capacity `cap` and length `n`, with no receive of a worker during the
tick. A `workers` that is not positive gives no iteration. -/
def tick (cap : Nat) (workers : Int) (n : Nat) : TickState :=
  tickLoop cap (fun _ => 0) (fun _ => false) workers.toNat 0
    { len := n, enqueued := 0, dropped := 0 }

/-- The events that change the length of `requestQueue`: one non-blocking
send of the dispatch goroutine, or one receive of a worker. -/
inductive QueueEvent
  | send
  | recv
  deriving DecidableEq, Repr

/-- The length of the queue after one event; a receive on the empty queue
blocks and leaves it empty. -/
def queueStep (cap : Nat) (n : Nat) : QueueEvent → Nat
  | QueueEvent.send => (trySend cap false { len := n, enqueued := 0, dropped := 0 }).len
  | QueueEvent.recv => n - 1

/-- The length of the queue after a sequence of events, from the empty
queue `make` returns. -/
def queueRun (cap : Nat) (evs : List QueueEvent) : Nat :=
  evs.foldl (queueStep cap) 0

/-- The globals `requestMethod` and `supportedMethods` when
`startLoadTest` is called. -/
structure RunConfig where
  requestMethod : String
  supportedMethods : List String
  deriving DecidableEq, Repr

/-- The method set-up of `main` (lines 379 to 401): `requestMethod` is the
answer to the method prompt after `ToUpper` and `TrimSpace`; `none` when
`main` returns (or panics) before the load test. -/
def mainSetup (env : Env) (targetURL requestMethod : String) : Option RunConfig :=
  if targetURL = "" then none
  else if requestMethod = "" then
    match detectBestMethod env targetURL with
    | DetectResult.ok _ supported =>
      some { requestMethod := requestMethod, supportedMethods := supported }
    | _ => none
  else some { requestMethod := requestMethod, supportedMethods := [requestMethod] }

/-- The method a worker of `startLoadTest` passes to `sendRequest`, where
`r` is the value `rand.Intn(len(supportedMethods))` returns when it is
called; `none` is an index out of range. -/
def workerMethod (cfg : RunConfig) (r : Nat) : Option String :=
  if cfg.requestMethod = "" ∧ cfg.supportedMethods.length > 0 then cfg.supportedMethods[r]?
  else some cfg.requestMethod

/-! ## The specification's words, as definitions -/

/-- The preference order as the specification words it: `POST`, then
`GET`, then `HEAD`, then the first element of the list (`none` when the
list has no first element). -/
def specChoice (methods : List String) : Option String :=
  if "POST" ∈ methods then some "POST"
  else if "GET" ∈ methods then some "GET"
  else if "HEAD" ∈ methods then some "HEAD"
  else methods.head?

/-- The pieces joined by the separator (`strings.Join` on one-character
separators). -/
def joinWith (sep : Char) : List (List Char) → List Char
  | [] => []
  | [p] => p
  | p :: q :: ps => p ++ sep :: joinWith sep (q :: ps)

/-- The string `m` is the piece `p` trimmed of surrounding white space:
`p` is `m` between two runs of white space, and `m` neither starts nor
ends with white space. -/
def IsTrimOf (p m : List Char) : Prop :=
  ∃ l r, p = l ++ m ++ r ∧ (∀ c ∈ l, isSpace c = true) ∧ (∀ c ∈ r, isSpace c = true) ∧
    (∀ c, m.head? = some c → isSpace c = false) ∧
    (∀ c, m.getLast? = some c → isSpace c = false)

/-- The list `supported` is the parse of the header value `allow` the
specification describes: `allow` is cut at its commas into pieces, and
`supported` holds the trimmed pieces, one entry per piece, in order. -/
def IsAllowParse (allow : String) (supported : List String) : Prop :=
  ∃ pieces : List (List Char), pieces ≠ [] ∧ (∀ p ∈ pieces, ',' ∉ p) ∧
    joinWith ',' pieces = allow.data ∧
    List.Forall₂ (fun p m => IsTrimOf p (String.data m)) pieces supported

/-! ## Predicates and counts used in the statements -/

/-- The integer `x` is a value of the type `int64`. -/
def IsInt64 (x : Int) : Prop :=
  -(2 ^ 63) ≤ x ∧ x < 2 ^ 63

instance (x : Int) : Decidable (IsInt64 x) :=
  inferInstanceAs (Decidable (-(2 ^ 63) ≤ x ∧ x < 2 ^ 63))

/-- The largest `int64`, `math.MaxInt64`. -/
def maxInt64 : Int := 9223372036854775807

/-- Whether the call of `sendRequest` receives a response: the request is
constructed and `client.Do` returns no error. -/
def gotResponse (k : Call) : Bool :=
  match buildRequest k.env k.url k.method k.body k.hdrs with
  | none => false
  | some req => (k.env.clientDo req).isSome

/-- The number of calls of the sequence that receive a response. -/
def responses (calls : List Call) : Nat :=
  calls.countP gotResponse

/-! ## Concrete environments -/

/-- An environment in which `http.NewRequest` rejects the target URL
`"http://exa mple.com"`, which `url.Parse` cannot parse (a blank in the
host name), and in which no request is answered. -/
def envMalformedURL : Env :=
  { newRequestOk := fun _ url => url != "http://exa mple.com", clientDo := fun _ => none }

/-- A target that answers OPTIONS with `Allow: GET, POST, DELETE` and
status 200, and every other request with status 200 and no Allow header. -/
def envAllow : Env :=
  { newRequestOk := fun _ _ => true,
    clientDo := fun req =>
      if req.method = "OPTIONS" then some { statusCode := 200, allow := "GET, POST, DELETE" }
      else some { statusCode := 200, allow := "" } }

/-- A target that answers every request with the status `code` and no
Allow header. -/
def envStatus (code : Int) : Env :=
  { newRequestOk := fun _ _ => true,
    clientDo := fun _ => some { statusCode := code, allow := "" } }

/-- A call of `sendRequest` with method GET on a target that answers 200. -/
def call200 : Call :=
  { env := envStatus 200, url := "http://target", method := "GET", body := "", hdrs := [] }

/-- A buffer limit of `make` for the examples: a platform that accepts up
to `2^32` buffered strings. -/
def limitExample : Nat := 2 ^ 32

theorem has_iff_mem (methods : List String) (m : String) :
    has methods m = true ↔ m ∈ methods := by
  induction methods with
  | nil => simp [has]
  | cons v vs ih =>
    by_cases h : v = m
    · simp [has, h]
    · have h2 : ¬ m = v := fun e => h e.symm
      simp [has, h, h2, ih]

/-! ## Splitting and trimming -/

theorem splitChars_ne_nil (sep : Char) (l : List Char) : splitChars sep l ≠ [] := by
  cases l with
  | nil => simp [splitChars]
  | cons c cs =>
    by_cases h : c = sep
    · simp [splitChars, h]
    · simp only [splitChars, h, if_false]
      split <;> simp

theorem splitChars_length (sep : Char) (l : List Char) :
    (splitChars sep l).length = l.count sep + 1 := by
  induction l with
  | nil => simp [splitChars]
  | cons c cs ih =>
    by_cases h : c = sep
    · subst h
      simp [splitChars, ih]
    · have hne := splitChars_ne_nil sep cs
      have hc : (c == sep) = false := by simpa using h
      simp only [splitChars, h, if_false, List.count_cons, hc]
      cases hs : splitChars sep cs with
      | nil => exact absurd hs hne
      | cons p ps => simp [← ih, hs]

theorem splitChars_join (sep : Char) (l : List Char) :
    joinWith sep (splitChars sep l) = l := by
  induction l with
  | nil => simp [splitChars, joinWith]
  | cons c cs ih =>
    have hne := splitChars_ne_nil sep cs
    by_cases h : c = sep
    · subst h
      cases hs : splitChars c cs with
      | nil => exact absurd hs hne
      | cons p ps =>
        rw [hs] at ih
        simp [splitChars, hs, joinWith, ih]
    · simp only [splitChars, h, if_false]
      cases hs : splitChars sep cs with
      | nil => exact absurd hs hne
      | cons p ps =>
        rw [hs] at ih
        cases ps with
        | nil => simp [joinWith] at ih ⊢; exact ih
        | cons q qs => simp [joinWith] at ih ⊢; exact ih

theorem splitChars_no_sep (sep : Char) (l : List Char) :
    ∀ p ∈ splitChars sep l, sep ∉ p := by
  induction l with
  | nil => simp [splitChars]
  | cons c cs ih =>
    have hne := splitChars_ne_nil sep cs
    by_cases h : c = sep
    · subst h
      intro p hp
      simp only [splitChars, if_true, List.mem_cons] at hp
      rcases hp with rfl | hp
      · simp
      · exact ih p hp
    · simp only [splitChars, h, if_false]
      cases hs : splitChars sep cs with
      | nil => exact absurd hs hne
      | cons q qs =>
        rw [hs] at ih
        intro p hp
        simp only [List.mem_cons] at hp
        rcases hp with rfl | hp
        · have := ih q (by simp)
          simp only [List.mem_cons, not_or]
          exact ⟨fun e => h e.symm, this⟩
        · exact ih p (by simp [hp])

theorem splitChars_of_no_sep (sep : Char) (p : List Char) (h : sep ∉ p) :
    splitChars sep p = [p] := by
  induction p with
  | nil => simp [splitChars]
  | cons c cs ih =>
    simp only [List.mem_cons, not_or] at h
    have hc : ¬ c = sep := fun e => h.1 e.symm
    simp [splitChars, hc, ih h.2]

theorem splitChars_append_sep (sep : Char) (p rest : List Char) (h : sep ∉ p) :
    splitChars sep (p ++ sep :: rest) = p :: splitChars sep rest := by
  induction p with
  | nil => simp [splitChars]
  | cons c cs ih =>
    simp only [List.mem_cons, not_or] at h
    have hc : ¬ c = sep := fun e => h.1 e.symm
    simp [splitChars, hc, ih h.2]

theorem splitChars_joinWith (sep : Char) (pieces : List (List Char)) (hne : pieces ≠ [])
    (h : ∀ p ∈ pieces, sep ∉ p) : splitChars sep (joinWith sep pieces) = pieces := by
  induction pieces with
  | nil => exact absurd rfl hne
  | cons p ps ih =>
    cases ps with
    | nil => simpa [joinWith] using splitChars_of_no_sep sep p (h p (by simp))
    | cons q qs =>
      have hq := ih (by simp) (fun x hx => h x (by simp [hx]))
      simp only [joinWith]
      rw [splitChars_append_sep sep p _ (h p (by simp))]
      simpa [joinWith] using hq

theorem trimLeft_spec (l : List Char) :
    ∃ ws, l = ws ++ trimLeft l ∧ (∀ c ∈ ws, isSpace c = true) ∧
      (∀ c, (trimLeft l).head? = some c → isSpace c = false) := by
  induction l with
  | nil => exact ⟨[], by simp [trimLeft]⟩
  | cons c cs ih =>
    by_cases h : isSpace c = true
    · obtain ⟨ws, h1, h2, h3⟩ := ih
      refine ⟨c :: ws, ?_, ?_, ?_⟩
      · simp only [trimLeft, h, if_true, List.cons_append]
        rw [← h1]
      · intro x hx
        simp only [List.mem_cons] at hx
        rcases hx with rfl | hx
        · exact h
        · exact h2 x hx
      · simpa [trimLeft, h] using h3
    · refine ⟨[], ?_, by simp, ?_⟩
      · simp [trimLeft, h]
      · intro x hx
        simp only [trimLeft, h] at hx
        simp at hx
        subst hx
        simpa using h

theorem trimRight_spec (l : List Char) :
    ∃ ws, l = trimRight l ++ ws ∧ (∀ c ∈ ws, isSpace c = true) ∧
      (∀ c, (trimRight l).getLast? = some c → isSpace c = false) := by
  obtain ⟨ws, h1, h2, h3⟩ := trimLeft_spec l.reverse
  refine ⟨ws.reverse, ?_, ?_, ?_⟩
  · have := congrArg List.reverse h1
    simpa [trimRight] using this
  · intro c hc
    exact h2 c (by simpa using hc)
  · intro c hc
    apply h3 c
    simpa [trimRight, List.getLast?_reverse] using hc

theorem trimRight_head (l : List Char) (c : Char) (h : l.head? = some c)
    (hc : isSpace c = false) : (trimRight l).head? = some c := by
  obtain ⟨ws, h1, h2, _⟩ := trimRight_spec l
  cases ht : trimRight l with
  | nil =>
    rw [ht] at h1
    simp only [List.nil_append] at h1
    subst h1
    cases l with
    | nil => simp at h
    | cons w rest =>
      simp only [List.head?_cons, Option.some.injEq] at h
      subst h
      have := h2 w (by simp)
      rw [hc] at this
      exact absurd this (by simp)
  | cons x xs =>
    rw [ht] at h1
    subst h1
    simpa using h

theorem stringsTrimSpace_spec (s : String) :
    IsTrimOf s.data (stringsTrimSpace s).data := by
  obtain ⟨l, h1, h2, h3⟩ := trimLeft_spec s.data
  obtain ⟨r, k1, k2, k3⟩ := trimRight_spec (trimLeft s.data)
  refine ⟨l, r, ?_, h2, k2, ?_, ?_⟩
  · show s.data = l ++ trimRight (trimLeft s.data) ++ r
    rw [List.append_assoc, ← k1, ← h1]
  · intro c hc
    show isSpace c = false
    change (trimRight (trimLeft s.data)).head? = some c at hc
    cases hl : (trimLeft s.data).head? with
    | none =>
      have hnil : trimLeft s.data = [] := by
        cases ht : trimLeft s.data with
        | nil => rfl
        | cons a b => rw [ht] at hl; simp at hl
      rw [hnil] at hc
      simp [trimRight, trimLeft] at hc
    | some x =>
      have hx := h3 x hl
      have := trimRight_head _ x hl hx
      rw [this] at hc
      cases hc
      exact hx
  · intro c hc
    exact k3 c hc

theorem trimLeft_append_spaces (l x : List Char) (h : ∀ c ∈ l, isSpace c = true) :
    trimLeft (l ++ x) = trimLeft x := by
  induction l with
  | nil => rfl
  | cons c cs ih =>
    have hc : isSpace c = true := h c (by simp)
    simp only [List.cons_append, trimLeft, hc, if_true]
    exact ih (fun y hy => h y (by simp [hy]))

theorem trimLeft_spaces (l : List Char) (h : ∀ c ∈ l, isSpace c = true) : trimLeft l = [] := by
  have := trimLeft_append_spaces l [] h
  simpa [trimLeft] using this

theorem trimLeft_of_head (x : List Char) (h : ∀ c, x.head? = some c → isSpace c = false) :
    trimLeft x = x := by
  cases x with
  | nil => rfl
  | cons c cs =>
    have hc : isSpace c = false := h c rfl
    simp [trimLeft, hc]

theorem isTrimOf_unique (p m : List Char) (h : IsTrimOf p m) :
    m = trimRight (trimLeft p) := by
  obtain ⟨l, r, hp, hl, hr, hh, ht⟩ := h
  subst hp
  rw [List.append_assoc, trimLeft_append_spaces l _ hl]
  cases m with
  | nil =>
    show [] = trimRight (trimLeft r)
    rw [trimLeft_spaces r hr]
    rfl
  | cons c cs =>
    have hc : isSpace c = false := hh c rfl
    have h2 : trimLeft (c :: cs ++ r) = c :: cs ++ r := by simp [trimLeft, hc]
    rw [h2]
    unfold trimRight
    rw [List.reverse_append, trimLeft_append_spaces _ _ (fun y hy => hr y (by simpa using hy))]
    rw [trimLeft_of_head]
    · simp
    · intro y hy
      apply ht y
      rw [List.getLast?_eq_head?_reverse]
      exact hy

/-! ## Helper lemmas on the resolver -/

theorem chooseBestMethod_mem (methods : List String) (h : methods ≠ []) :
    chooseBestMethod methods ∈ methods := by
  unfold chooseBestMethod
  split
  · rename_i h1; exact (has_iff_mem _ _).1 h1
  · split
    · rename_i h2; exact (has_iff_mem _ _).1 h2
    · split
      · rename_i h3; exact (has_iff_mem _ _).1 h3
      · cases methods with
        | nil => exact absurd rfl h
        | cons a b => simp

theorem allowMethods_ne_nil (allow : String) :
    (stringsSplit allow ',').map stringsTrimSpace ≠ [] := by
  have := splitChars_ne_nil ',' allow.data
  simpa [stringsSplit] using this

theorem allowMethods_parse (allow : String) :
    IsAllowParse allow ((stringsSplit allow ',').map stringsTrimSpace) := by
  refine ⟨splitChars ',' allow.data, splitChars_ne_nil _ _, splitChars_no_sep _ _,
    splitChars_join _ _, ?_⟩
  unfold stringsSplit
  rw [List.map_map, List.forall₂_map_right_iff, List.forall₂_same]
  intro p _
  exact stringsTrimSpace_spec (String.mk p)

theorem allowParse_unique (allow : String) (supported : List String)
    (h : IsAllowParse allow supported) :
    supported = (stringsSplit allow ',').map stringsTrimSpace := by
  obtain ⟨pieces, hne, hsep, hjoin, hall⟩ := h
  have hp : splitChars ',' allow.data = pieces := by
    rw [← hjoin]; exact splitChars_joinWith ',' pieces hne hsep
  unfold stringsSplit
  rw [hp, List.map_map]
  clear hp hjoin hsep hne
  induction hall with
  | nil => rfl
  | @cons p m ps ms hpm _ ih =>
    have hm := isTrimOf_unique p m.data hpm
    simp only [List.map_cons, Function.comp]
    rw [← ih]
    congr 1
    show m = String.mk (trimRight (trimLeft p))
    rw [← hm]

theorem probeLoop_mem (env : Env) (url : String) (ms : List String) (chosen : String)
    (supported : List String) (h : probeLoop env url ms = DetectResult.ok chosen supported) :
    chosen ∈ ms ∧ supported = [chosen] := by
  induction ms with
  | nil => simp [probeLoop] at h
  | cons m rest ih =>
    simp only [probeLoop] at h
    split at h
    · cases h
    · split at h
      · cases h; simp
      · have := ih h
        exact ⟨by simp [this.1], this.2⟩

theorem detectBestMethod_ok_mem (env : Env) (url chosen : String) (supported : List String)
    (h : detectBestMethod env url = DetectResult.ok chosen supported) :
    chosen ∈ supported ∧ supported ≠ [] := by
  have hfb : probeLoop env url ["HEAD", "GET", "POST"] = DetectResult.ok chosen supported →
      chosen ∈ supported ∧ supported ≠ [] := by
    intro hp
    have := probeLoop_mem env url _ chosen supported hp
    rw [this.2]; simp
  unfold detectBestMethod at h
  simp only at h
  split at h
  · exact hfb h
  · split at h
    · exact hfb h
    · split at h
      · cases h
        exact ⟨chooseBestMethod_mem _ (allowMethods_ne_nil _), allowMethods_ne_nil _⟩
      · exact hfb h

theorem probeLoop_of_requests (env : Env) (url : String) (ms : List String)
    (hok : ∀ m ∈ ms, env.newRequestOk m url = true) (hne : ∀ m ∈ ms, m ≠ "") :
    probeLoop env url ms =
      match ms.find? (fun m => (env.clientDo (Request.mk m url none [])).isSome) with
      | some m => DetectResult.ok m [m]
      | none => DetectResult.err := by
  induction ms with
  | nil => rfl
  | cons m rest ih =>
    have h1 : env.newRequestOk m url = true := hok m (by simp)
    have h2 : m ≠ "" := hne m (by simp)
    have ih2 := ih (fun x hx => hok x (by simp [hx])) (fun x hx => hne x (by simp [hx]))
    simp only [probeLoop, newRequest, h1, if_true, h2, if_false, List.find?_cons]
    cases hd : env.clientDo (Request.mk m url none []) with
    | none => simpa using ih2
    | some resp => simp

/-- The fall-back of `detectBestMethod`, when the requests can be
constructed: with no usable Allow list from OPTIONS, the result is the
first of HEAD, GET, POST whose probe yields a response, with itself as the
supported set, and the error when none does. -/
theorem detectBestMethod_fallback (env : Env) (url : String)
    (hno : ∀ req resp, newRequest env "OPTIONS" url none = some req →
      env.clientDo req = some resp → resp.allow = "")
    (hok : ∀ m ∈ ["HEAD", "GET", "POST"], env.newRequestOk m url = true) :
    detectBestMethod env url =
      if (env.clientDo (Request.mk "HEAD" url none [])).isSome then
        DetectResult.ok "HEAD" ["HEAD"]
      else if (env.clientDo (Request.mk "GET" url none [])).isSome then
        DetectResult.ok "GET" ["GET"]
      else if (env.clientDo (Request.mk "POST" url none [])).isSome then
        DetectResult.ok "POST" ["POST"]
      else DetectResult.err := by
  have hfb := probeLoop_of_requests env url ["HEAD", "GET", "POST"] hok (by decide)
  have hd : detectBestMethod env url = probeLoop env url ["HEAD", "GET", "POST"] := by
    unfold detectBestMethod
    simp only
    split
    · rfl
    · rename_i req hreq
      split
      · rfl
      · rename_i resp hresp
        have := hno req resp hreq hresp
        simp [this]
  rw [hd, hfb]
  simp only [List.find?_cons, List.find?_nil]
  cases h1 : (env.clientDo (Request.mk "HEAD" url none [])).isSome <;>
  cases h2 : (env.clientDo (Request.mk "GET" url none [])).isSome <;>
  cases h3 : (env.clientDo (Request.mk "POST" url none [])).isSome <;> simp

/-! ## Helper lemmas on headers -/

theorem wrapInt64_of_range (v : Int) (h1 : -(2 ^ 63) ≤ v) (h2 : v < 2 ^ 63) :
    wrapInt64 v = v := by
  unfold wrapInt64
  omega

theorem wrapInt64_range (v : Int) : -(2 ^ 63) ≤ wrapInt64 v ∧ wrapInt64 v < 2 ^ 63 := by
  unfold wrapInt64
  omega

theorem wrapInt64_add (v w : Int) : wrapInt64 (wrapInt64 v + w) = wrapInt64 (v + w) := by
  unfold wrapInt64
  omega

theorem sendRequest_of_build_none (env : Env) (c : Counters) (url method body : String)
    (hdrs : Header) (h : buildRequest env url method body hdrs = none) :
    sendRequest env c url method body hdrs =
      { c with unreachableHits := atomicAddInt64 c.unreachableHits 1 } := by
  unfold sendRequest
  rw [h]

theorem sendRequest_of_do_none (env : Env) (c : Counters) (url method body : String)
    (hdrs : Header) (req : Request) (h : buildRequest env url method body hdrs = some req)
    (hdo : env.clientDo req = none) :
    sendRequest env c url method body hdrs =
      { c with unreachableHits := atomicAddInt64 c.unreachableHits 1 } := by
  unfold sendRequest
  rw [h]
  simp only [hdo]

theorem sendRequest_of_response (env : Env) (c : Counters) (url method body : String)
    (hdrs : Header) (req : Request) (resp : Response)
    (h : buildRequest env url method body hdrs = some req)
    (hdo : env.clientDo req = some resp) :
    sendRequest env c url method body hdrs =
      { totalRequests := atomicAddInt64 c.totalRequests 1,
        successfulHits :=
          if 200 ≤ resp.statusCode ∧ resp.statusCode < 400 then
            atomicAddInt64 c.successfulHits 1
          else c.successfulHits,
        unreachableHits := c.unreachableHits } := by
  unfold sendRequest
  rw [h]
  simp only [hdo]
  split <;> rfl

theorem sendRequest_step (k : Call) (c : Counters) (h0 : 0 ≤ c.successfulHits)
    (h1 : c.successfulHits ≤ c.totalRequests)
    (h3 : c.totalRequests + (if gotResponse k then 1 else 0) < 2 ^ 63) :
    0 ≤ (sendRequest k.env c k.url k.method k.body k.hdrs).successfulHits ∧
    (sendRequest k.env c k.url k.method k.body k.hdrs).successfulHits ≤
      (sendRequest k.env c k.url k.method k.body k.hdrs).totalRequests ∧
    (sendRequest k.env c k.url k.method k.body k.hdrs).totalRequests =
      c.totalRequests + (if gotResponse k then 1 else 0) := by
  cases hb : buildRequest k.env k.url k.method k.body k.hdrs with
  | none =>
    have hg : gotResponse k = false := by simp [gotResponse, hb]
    rw [sendRequest_of_build_none k.env c k.url k.method k.body k.hdrs hb]
    simp only [hg]
    simp [h0, h1]
  | some req =>
    cases hd : k.env.clientDo req with
    | none =>
      have hg : gotResponse k = false := by simp [gotResponse, hb, hd]
      rw [sendRequest_of_do_none k.env c k.url k.method k.body k.hdrs req hb hd]
      simp only [hg]
      simp [h0, h1]
    | some resp =>
      have hg : gotResponse k = true := by simp [gotResponse, hb, hd]
      simp only [hg, if_true] at h3
      have ht : atomicAddInt64 c.totalRequests 1 = c.totalRequests + 1 :=
        wrapInt64_of_range _ (by omega) (by omega)
      have hs : atomicAddInt64 c.successfulHits 1 = c.successfulHits + 1 :=
        wrapInt64_of_range _ (by omega) (by omega)
      rw [sendRequest_of_response k.env c k.url k.method k.body k.hdrs req resp hb hd]
      simp only [ht, hs, hg, if_true]
      split <;> simp <;> omega

theorem runCalls_inv (calls : List Call) :
    ∀ c : Counters, 0 ≤ c.successfulHits → c.successfulHits ≤ c.totalRequests →
      c.totalRequests + responses calls < 2 ^ 63 →
      0 ≤ (runCalls c calls).successfulHits ∧
      (runCalls c calls).successfulHits ≤ (runCalls c calls).totalRequests ∧
      (runCalls c calls).totalRequests = c.totalRequests + responses calls := by
  induction calls with
  | nil =>
    intro c h0 h1 _
    simp [runCalls, responses, h0, h1]
  | cons k ks ih =>
    intro c h0 h1 h3
    have hr : (responses (k :: ks) : Int) =
        (if gotResponse k then 1 else 0) + responses ks := by
      unfold responses
      rw [List.countP_cons]
      split <;> simp [Int.add_comm]
    rw [hr] at h3
    have hnn : (0 : Int) ≤ responses ks := Int.ofNat_nonneg _
    have h4 : c.totalRequests + (if gotResponse k then 1 else 0) < 2 ^ 63 := by
      cases hg : gotResponse k <;> simp only [hg] at h3 ⊢ <;> simp at h3 ⊢ <;> omega
    obtain ⟨a0, a1, a2⟩ := sendRequest_step k c h0 h1 h4
    have := ih (sendRequest k.env c k.url k.method k.body k.hdrs) a0 a1 (by rw [a2]; omega)
    simp only [runCalls, List.foldl_cons]
    simp only [runCalls] at this
    rw [hr]
    omega

theorem sendRequest_call200 (c : Counters) :
    sendRequest call200.env c call200.url call200.method call200.body call200.hdrs =
      Counters.mk (atomicAddInt64 c.totalRequests 1) (atomicAddInt64 c.successfulHits 1)
        c.unreachableHits :=
  sendRequest_of_response _ c _ _ _ _
    (Request.mk "GET" "http://target" none []) (Response.mk 200 "") rfl rfl

theorem runCalls_replicate_call200 (n : Nat) :
    ∀ c : Counters, -(2 ^ 63) ≤ c.totalRequests → c.totalRequests < 2 ^ 63 →
      (runCalls c (List.replicate n call200)).totalRequests =
        wrapInt64 (c.totalRequests + n) := by
  induction n with
  | zero =>
    intro c h1 h2
    simp only [List.replicate, runCalls, List.foldl_nil, Nat.cast_zero, add_zero]
    exact (wrapInt64_of_range _ h1 h2).symm
  | succ n ih =>
    intro c _ _
    have hstep := sendRequest_call200 c
    have hr := wrapInt64_range (c.totalRequests + 1)
    have := ih (Counters.mk (atomicAddInt64 c.totalRequests 1)
      (atomicAddInt64 c.successfulHits 1) c.unreachableHits) hr.1 hr.2
    simp only [List.replicate, runCalls, List.foldl_cons, hstep]
    simp only [runCalls] at this
    rw [this]
    simp only [atomicAddInt64, wrapInt64_add, Nat.cast_add, Nat.cast_one]
    congr 1
    omega

/-! ## Helper lemmas on the dispatch loop -/

theorem trySend_len (cap : Nat) (s : TickState) :
    (trySend cap false s).len = if s.len < cap then s.len + 1 else s.len := by
  unfold trySend
  split
  · rfl
  · simp

theorem tickLoop_spec (cap k : Nat) :
    ∀ (i : Nat) (s : TickState), s.len ≤ cap →
      (tickLoop cap (fun _ => 0) (fun _ => false) k i s).len = min cap (s.len + k) ∧
      (tickLoop cap (fun _ => 0) (fun _ => false) k i s).enqueued =
        s.enqueued + (min cap (s.len + k) - s.len) ∧
      (tickLoop cap (fun _ => 0) (fun _ => false) k i s).dropped =
        s.dropped + (s.len + k - min cap (s.len + k)) := by
  induction k with
  | zero =>
    intro i s h
    simp only [tickLoop, add_zero]
    omega
  | succ k ih =>
    intro i s h
    simp only [tickLoop, Nat.sub_zero]
    by_cases hlt : s.len < cap
    · have hs : trySend cap false s =
          { s with len := s.len + 1, enqueued := s.enqueued + 1 } := by
        simp [trySend, hlt]
      obtain ⟨a, b, c⟩ := ih (i + 1) (trySend cap false s) (by rw [hs]; exact hlt)
      rw [a, b, c, hs]
      simp only
      omega
    · have hs : trySend cap false s = { s with dropped := s.dropped + 1 } := by
        simp [trySend, hlt]
      obtain ⟨a, b, c⟩ := ih (i + 1) (trySend cap false s) (by rw [hs]; exact h)
      rw [a, b, c, hs]
      simp only
      omega

theorem tickLoop_len_eq_sends (cap k : Nat) :
    ∀ (i : Nat) (s : TickState),
      (tickLoop cap (fun _ => 0) (fun _ => false) k i s).len =
        (List.replicate k QueueEvent.send).foldl (queueStep cap) s.len := by
  induction k with
  | zero => intro i s; rfl
  | succ k ih =>
    intro i s
    simp only [tickLoop, Nat.sub_zero, List.replicate, List.foldl_cons]
    rw [ih (i + 1) (trySend cap false s)]
    congr 1
    simp [queueStep, trySend_len]

theorem queueStep_le (cap n : Nat) (ev : QueueEvent) (h : n ≤ cap) :
    queueStep cap n ev ≤ cap := by
  cases ev with
  | send =>
    simp only [queueStep, trySend_len]
    split <;> omega
  | recv =>
    simp only [queueStep]
    omega

theorem queueRun_le (cap : Nat) (evs : List QueueEvent) : queueRun cap evs ≤ cap := by
  have key : ∀ (l : List QueueEvent) (n : Nat), n ≤ cap →
      l.foldl (queueStep cap) n ≤ cap := by
    intro l
    induction l with
    | nil => intro n h; exact h
    | cons ev rest ih =>
      intro n h
      exact ih _ (queueStep_le cap n ev h)
  exact key evs 0 (Nat.zero_le _)

theorem tick_spec (cap : Nat) (workers : Int) (n : Nat) (h : n ≤ cap) :
    (tick cap workers n).len = min cap (n + workers.toNat) ∧
    (tick cap workers n).enqueued = min cap (n + workers.toNat) - n ∧
    (tick cap workers n).dropped = n + workers.toNat - min cap (n + workers.toNat) := by
  obtain ⟨a, b, c⟩ := tickLoop_spec cap workers.toNat 0
    { len := n, enqueued := 0, dropped := 0 } h
  simp only at a b c
  unfold tick
  rw [a, b, c]
  omega

theorem requestQueueCap_eq (limit : Nat) (rps workers : Int) (cap : Nat)
    (h : requestQueueCap limit rps workers = some cap) :
    (cap : Int) = wrapInt64 (rps * workers) ∧ cap ≤ limit := by
  unfold requestQueueCap at h
  split at h
  · cases h
  · split at h
    · cases h
    · simp only [Option.some.injEq] at h
      omega

/-- C1 (amended). For every list of method names `chooseBestMethod`
follows the preference order POST, GET, HEAD, first-listed of the
specification whenever the list has a first element, and it returns the
default `"GET"` for the empty list. -/
theorem chooseBestMethod_preference (methods : List String) :
    ("POST" ∈ methods → chooseBestMethod methods = "POST") ∧
    ("POST" ∉ methods → "GET" ∈ methods → chooseBestMethod methods = "GET") ∧
    ("POST" ∉ methods → "GET" ∉ methods → "HEAD" ∈ methods →
      chooseBestMethod methods = "HEAD") ∧
    (∀ m rest, "POST" ∉ methods → "GET" ∉ methods → "HEAD" ∉ methods → methods = m :: rest →
      chooseBestMethod methods = m) ∧
    (methods ≠ [] → specChoice methods = some (chooseBestMethod methods)) ∧
    (methods = [] → chooseBestMethod methods = "GET") := by
  by_cases hP : "POST" ∈ methods
  · have := (has_iff_mem methods "POST").2 hP
    cases methods with
    | nil => simp at hP
    | cons a b => simp [chooseBestMethod, specChoice, this, hP]
  · have hP2 : has methods "POST" = false := by
      rw [← Bool.not_eq_true, has_iff_mem]; exact hP
    by_cases hG : "GET" ∈ methods
    · have := (has_iff_mem methods "GET").2 hG
      cases methods with
      | nil => simp at hG
      | cons a b => simp [chooseBestMethod, specChoice, this, hP, hP2, hG]
    · have hG2 : has methods "GET" = false := by
        rw [← Bool.not_eq_true, has_iff_mem]; exact hG
      by_cases hH : "HEAD" ∈ methods
      · have := (has_iff_mem methods "HEAD").2 hH
        cases methods with
        | nil => simp at hH
        | cons a b => simp [chooseBestMethod, specChoice, this, hP, hP2, hG, hG2, hH]
      · have hH2 : has methods "HEAD" = false := by
          rw [← Bool.not_eq_true, has_iff_mem]; exact hH
        cases methods with
        | nil => simp [chooseBestMethod, has]
        | cons a b =>
          simp only [chooseBestMethod, specChoice, hP, hP2, hG, hG2, hH, hH2]
          simp

/-- C1 (counterexample). At the empty list the specification's order
names no method (the list has no first element), and `chooseBestMethod`
returns `"GET"`. -/
theorem chooseBestMethod_preference_fails_empty :
    ¬ (specChoice [] = some (chooseBestMethod [])) ∧ chooseBestMethod [] = "GET" ∧
      ([] : List String).head? = none := by
  decide

/-- C10. For every non-empty list `chooseBestMethod` returns an element of
the list, so the method `detectBestMethod` reports as chosen is a member
of the supported set it returns; `chooseBestMethod` returns a method
outside the list only for the empty list, where it returns `"GET"`. -/
theorem chooseBestMethod_member (methods : List String) :
    (methods ≠ [] → chooseBestMethod methods ∈ methods) ∧
    (∀ (env : Env) (url chosen : String) (supported : List String),
      detectBestMethod env url = DetectResult.ok chosen supported → chosen ∈ supported) ∧
    (chooseBestMethod methods ∉ methods → methods = [] ∧ chooseBestMethod methods = "GET") ∧
    (chooseBestMethod [] = "GET" ∧ chooseBestMethod [] ∉ ([] : List String)) := by
  refine ⟨chooseBestMethod_mem methods, ?_, ?_, by decide⟩
  · intro env url chosen supported h
    exact (detectBestMethod_ok_mem env url chosen supported h).1
  · intro h
    by_cases hm : methods = []
    · subst hm
      exact ⟨rfl, by decide⟩
    · exact absurd (chooseBestMethod_mem methods hm) h

/-- C2. When the OPTIONS probe returns a response with a non-empty Allow
value, `detectBestMethod` returns, with a nil error, a supported set that
is the parse of the value the specification describes (the pieces between
the commas, each trimmed of surrounding white space, one entry per piece,
in order) and is the only such list, and the chosen method is
`chooseBestMethod` of that set; for `"GET, POST, DELETE"` the result is
`"POST"` with `["GET", "POST", "DELETE"]`. -/
theorem detectBestMethod_allow (env : Env) (url : String) (req : Request) (resp : Response)
    (hreq : newRequest env "OPTIONS" url none = some req)
    (hdo : env.clientDo req = some resp) (hallow : resp.allow ≠ "") :
    ∃ supported : List String,
      detectBestMethod env url = DetectResult.ok (chooseBestMethod supported) supported ∧
      IsAllowParse resp.allow supported ∧
      (∀ other, IsAllowParse resp.allow other → other = supported) ∧
      supported.length = resp.allow.data.count ',' + 1 ∧
      (resp.allow = "GET, POST, DELETE" →
        detectBestMethod env url = DetectResult.ok "POST" ["GET", "POST", "DELETE"]) := by
  have hd : detectBestMethod env url =
      DetectResult.ok (chooseBestMethod ((stringsSplit resp.allow ',').map stringsTrimSpace))
        ((stringsSplit resp.allow ',').map stringsTrimSpace) := by
    unfold detectBestMethod
    simp only [hreq, hdo, hallow, ne_eq, not_false_eq_true, if_true]
  refine ⟨_, hd, allowMethods_parse _, allowParse_unique _, ?_, ?_⟩
  · simp [stringsSplit, splitChars_length]
  · intro he
    rw [hd, he]
    decide

/-- C2 (witness). A target whose OPTIONS response carries
`Allow: GET, POST, DELETE`: the resolver chooses POST and reports the three
methods in the order of the header. -/
theorem detectBestMethod_allow_witness :
    newRequest envAllow "OPTIONS" "http://target" none =
      some (Request.mk "OPTIONS" "http://target" none []) ∧
    envAllow.clientDo (Request.mk "OPTIONS" "http://target" none []) =
      some (Response.mk 200 "GET, POST, DELETE") ∧
    (Response.mk 200 "GET, POST, DELETE").allow ≠ "" ∧
    detectBestMethod envAllow "http://target" =
      DetectResult.ok "POST" ["GET", "POST", "DELETE"] :=
  ⟨by decide, by decide, by decide,
    (detectBestMethod_allow envAllow "http://target"
      (Request.mk "OPTIONS" "http://target" none []) (Response.mk 200 "GET, POST, DELETE")
      (by decide) (by decide) (by decide)).elim fun _ hs => hs.2.2.2.2 rfl⟩

/-- C4 (amended). For every call of `sendRequest` and every starting value
of the three `int64` counters: when request construction or the transport
fails, the unreachable counter becomes the `int64` sum of itself and 1,
which is an increase by exactly 1 unless the counter is at the maximum
`2^63 - 1` (it then wraps to `-2^63`), and total-attempted and successful
are unchanged; when a response with status `s` is received,
total-attempted increases by exactly 1 unless it is at the maximum,
successful increases by exactly 1 if `200 <= s < 400` (unless it is at the
maximum) and is unchanged otherwise, and the unreachable counter is
unchanged. -/
theorem sendRequest_counters (env : Env) (c : Counters) (url method body : String)
    (hdrs : Header) (hT : IsInt64 c.totalRequests) (hS : IsInt64 c.successfulHits)
    (hU : IsInt64 c.unreachableHits) :
    ((buildRequest env url method body hdrs = none ∨
        ∃ req, buildRequest env url method body hdrs = some req ∧ env.clientDo req = none) →
      (sendRequest env c url method body hdrs).unreachableHits =
        wrapInt64 (c.unreachableHits + 1) ∧
      (c.unreachableHits ≠ maxInt64 →
        (sendRequest env c url method body hdrs).unreachableHits = c.unreachableHits + 1) ∧
      (c.unreachableHits = maxInt64 →
        (sendRequest env c url method body hdrs).unreachableHits = -(2 ^ 63)) ∧
      (sendRequest env c url method body hdrs).totalRequests = c.totalRequests ∧
      (sendRequest env c url method body hdrs).successfulHits = c.successfulHits) ∧
    (∀ req resp, buildRequest env url method body hdrs = some req →
      env.clientDo req = some resp →
      (c.totalRequests ≠ maxInt64 →
        (sendRequest env c url method body hdrs).totalRequests = c.totalRequests + 1) ∧
      (200 ≤ resp.statusCode ∧ resp.statusCode < 400 → c.successfulHits ≠ maxInt64 →
        (sendRequest env c url method body hdrs).successfulHits = c.successfulHits + 1) ∧
      (¬ (200 ≤ resp.statusCode ∧ resp.statusCode < 400) →
        (sendRequest env c url method body hdrs).successfulHits = c.successfulHits) ∧
      (sendRequest env c url method body hdrs).unreachableHits = c.unreachableHits) := by
  unfold IsInt64 at hT hS hU
  have hwrap : ∀ x : Int, -(2 ^ 63) ≤ x → x < 2 ^ 63 → x ≠ maxInt64 →
      atomicAddInt64 x 1 = x + 1 := by
    intro x h1 h2 h3
    have : x ≠ 9223372036854775807 := h3
    exact wrapInt64_of_range _ (by omega) (by omega)
  have hmax : c.unreachableHits = maxInt64 → atomicAddInt64 c.unreachableHits 1 = -(2 ^ 63) := by
    intro h
    rw [h]
    decide
  constructor
  · rintro (h | ⟨req, h, hdo⟩)
    · rw [sendRequest_of_build_none env c url method body hdrs h]
      exact ⟨rfl, hwrap _ hU.1 hU.2, hmax, rfl, rfl⟩
    · rw [sendRequest_of_do_none env c url method body hdrs req h hdo]
      exact ⟨rfl, hwrap _ hU.1 hU.2, hmax, rfl, rfl⟩
  · intro req resp h hdo
    rw [sendRequest_of_response env c url method body hdrs req resp h hdo]
    refine ⟨hwrap _ hT.1 hT.2, ?_, ?_, rfl⟩
    · intro hs hne
      simp only [hs, and_self, if_true]
      exact hwrap _ hS.1 hS.2 hne
    · intro hs
      simp only [hs, if_false]

/-- C4 (witness). From zero counters, a response with status 404 adds one
to total-attempted only. -/
theorem sendRequest_counters_witness :
    (IsInt64 zeroCounters.totalRequests ∧ IsInt64 zeroCounters.successfulHits ∧
      IsInt64 zeroCounters.unreachableHits) ∧
    (sendRequest (envStatus 404) zeroCounters "http://target" "GET" "" []).totalRequests =
      zeroCounters.totalRequests + 1 ∧
    (sendRequest (envStatus 404) zeroCounters "http://target" "GET" "" []).successfulHits =
      zeroCounters.successfulHits ∧
    (sendRequest (envStatus 404) zeroCounters "http://target" "GET" "" []).unreachableHits =
      zeroCounters.unreachableHits :=
  ⟨⟨by decide, by decide, by decide⟩,
    ((sendRequest_counters (envStatus 404) zeroCounters "http://target" "GET" "" []
      (by decide) (by decide) (by decide)).2
      (Request.mk "GET" "http://target" none []) (Response.mk 404 "") rfl rfl).1 (by decide),
    ((sendRequest_counters (envStatus 404) zeroCounters "http://target" "GET" "" []
      (by decide) (by decide) (by decide)).2
      (Request.mk "GET" "http://target" none []) (Response.mk 404 "") rfl rfl).2.2.1
      (by decide),
    ((sendRequest_counters (envStatus 404) zeroCounters "http://target" "GET" "" []
      (by decide) (by decide) (by decide)).2
      (Request.mk "GET" "http://target" none []) (Response.mk 404 "") rfl rfl).2.2.2⟩

/-- C4 (counterexample). With the unreachable counter at the `int64`
maximum, a call whose request cannot be constructed does not increase the
counter by 1: the atomic addition wraps it to `-2^63`. -/
theorem sendRequest_counters_fails_at_max :
    buildRequest envMalformedURL "http://exa mple.com" "GET" "" [] = none ∧
    (sendRequest envMalformedURL
        { totalRequests := 0, successfulHits := 0, unreachableHits := 9223372036854775807 }
        "http://exa mple.com" "GET" "" []).unreachableHits = -9223372036854775808 ∧
    ¬ ((sendRequest envMalformedURL
        { totalRequests := 0, successfulHits := 0, unreachableHits := 9223372036854775807 }
        "http://exa mple.com" "GET" "" []).unreachableHits = 9223372036854775807 + 1) := by
  decide

/-- C5 (amended). Starting from all counters at zero, after any finite
sequence of calls of `sendRequest` (each a failure or a response with an
arbitrary status code) of which fewer than `2^63` receive a response,
total-attempted >= successful and both are >= 0; total-attempted is the
number of calls that received a response. -/
theorem runCalls_total_ge_successful (calls : List Call) (h : responses calls < 2 ^ 63) :
    (runCalls zeroCounters calls).successfulHits ≤ (runCalls zeroCounters calls).totalRequests ∧
    0 ≤ (runCalls zeroCounters calls).totalRequests ∧
    0 ≤ (runCalls zeroCounters calls).successfulHits ∧
    (runCalls zeroCounters calls).totalRequests = responses calls := by
  have hlen : ((responses calls : Nat) : Int) < 2 ^ 63 := by exact_mod_cast h
  obtain ⟨a0, a1, a2⟩ := runCalls_inv calls zeroCounters (by decide) (by decide)
    (by simp only [zeroCounters]; omega)
  refine ⟨a1, le_trans a0 a1, a0, ?_⟩
  rw [a2]
  simp [zeroCounters]

/-- C5 (witness). Three calls answered with status 200. -/
theorem runCalls_total_ge_successful_witness :
    responses [call200, call200, call200] < 2 ^ 63 ∧
    (runCalls zeroCounters [call200, call200, call200]).successfulHits ≤
      (runCalls zeroCounters [call200, call200, call200]).totalRequests ∧
    0 ≤ (runCalls zeroCounters [call200, call200, call200]).totalRequests ∧
    0 ≤ (runCalls zeroCounters [call200, call200, call200]).successfulHits ∧
    (runCalls zeroCounters [call200, call200, call200]).totalRequests =
      responses [call200, call200, call200] :=
  ⟨by decide, runCalls_total_ge_successful [call200, call200, call200] (by decide)⟩

/-- C5 (counterexample). After `2^63` calls that are each answered with
status 200, the `int64` counter total-attempted has wrapped to `-2^63`
and is negative. -/
theorem runCalls_total_negative_after_wrap :
    (runCalls zeroCounters (List.replicate (2 ^ 63) call200)).totalRequests = -(2 ^ 63) ∧
    ¬ (0 ≤ (runCalls zeroCounters (List.replicate (2 ^ 63) call200)).totalRequests) := by
  have h := runCalls_replicate_call200 (2 ^ 63) zeroCounters (by decide) (by decide)
  have hv : wrapInt64 (zeroCounters.totalRequests + ((2 ^ 63 : Nat) : Int)) = -(2 ^ 63) := by
    decide
  rw [hv] at h
  rw [h]
  exact ⟨rfl, by decide⟩

/-- C3 (the failing input). For a target URL that `http.NewRequest`
rejects, the OPTIONS probe errors and none of the HEAD, GET, POST probes
yields a response, yet `detectBestMethod` does not return its error: the
fall-back loop hands the nil request to `client.Do` and the program
panics. -/
theorem detectBestMethod_crashes_on_malformed_url :
    newRequest envMalformedURL "OPTIONS" "http://exa mple.com" none = none ∧
    newRequest envMalformedURL "HEAD" "http://exa mple.com" none = none ∧
    detectBestMethod envMalformedURL "http://exa mple.com" = DetectResult.crashed ∧
    detectBestMethod envMalformedURL "http://exa mple.com" ≠ DetectResult.err := by
  decide

/-- C6. For every run configuration `main` sets up, the supported method
set is non-empty and the method a worker passes to `sendRequest` is an
element of it: with a non-empty explicit method the set is the singleton
of that method and every request uses exactly that method; with
auto-detection the method is `supportedMethods[r]` for the index `r` the
worker draws. -/
theorem workerMethod_in_supported (env : Env) (targetURL requestMethod : String)
    (cfg : RunConfig) (hcfg : mainSetup env targetURL requestMethod = some cfg) :
    cfg.supportedMethods ≠ [] ∧
    (requestMethod ≠ "" →
      cfg.supportedMethods = [requestMethod] ∧
      ∀ r, workerMethod cfg r = some requestMethod) ∧
    (requestMethod = "" →
      ∀ r, r < cfg.supportedMethods.length →
        ∃ m, workerMethod cfg r = some m ∧ cfg.supportedMethods[r]? = some m) ∧
    (∀ r, r < cfg.supportedMethods.length →
      ∃ m, workerMethod cfg r = some m ∧ m ∈ cfg.supportedMethods) := by
  unfold mainSetup at hcfg
  split at hcfg
  · cases hcfg
  · by_cases hm : requestMethod = ""
    · simp only [hm, if_true] at hcfg
      split at hcfg
      · rename_i chosen supported hdet
        cases hcfg
        have hne := (detectBestMethod_ok_mem env targetURL chosen supported hdet).2
        have hpos : 0 < supported.length := List.length_pos.2 hne
        have hw : ∀ r, r < supported.length →
            ∃ m, workerMethod (RunConfig.mk "" supported) r = some m ∧
              supported[r]? = some m := by
          intro r hr
          refine ⟨supported[r], ?_, List.getElem?_eq_getElem hr⟩
          simp [workerMethod, hpos, List.getElem?_eq_getElem hr]
        refine ⟨hne, fun h => absurd hm h, fun _ r hr => hw r hr, fun r hr => ?_⟩
        obtain ⟨m, h1, h2⟩ := hw r hr
        exact ⟨m, h1, List.getElem?_mem h2⟩
      · cases hcfg
    · simp only [hm, if_false] at hcfg
      cases hcfg
      refine ⟨by simp, fun _ => ⟨rfl, fun r => by simp [workerMethod, hm]⟩,
        fun h => absurd h hm, fun r hr => ?_⟩
      exact ⟨requestMethod, by simp [workerMethod, hm], by simp⟩

/-- C6 (witness). Auto-detection against a target that allows GET, POST
and DELETE: a worker that draws the index 2 sends DELETE. -/
theorem workerMethod_in_supported_witness :
    mainSetup envAllow "http://target" "" =
      some (RunConfig.mk "" ["GET", "POST", "DELETE"]) ∧
    (∃ m, workerMethod (RunConfig.mk "" ["GET", "POST", "DELETE"]) 2 = some m ∧
      m ∈ ["GET", "POST", "DELETE"]) :=
  ⟨by decide,
    (workerMethod_in_supported envAllow "http://target" ""
      (RunConfig.mk "" ["GET", "POST", "DELETE"]) (by decide)).2.2.2 2 (by decide)⟩

/-- C8 (amended). On every tick the dispatch goroutine makes exactly
`workers` non-blocking send attempts on the queue that
`make(chan string, rps*workers)` returned. The capacity `cap` of that
queue is the product `rps * workers` as an `int64`, and it is
`rps * workers` itself whenever `0 <= rps * workers < 2^63`. From a queue
of length `n <= cap`, with no receive in between, the tick leaves the
length at `min cap (n + workers)`, drops the remaining
`(n + workers) - min cap (n + workers)` tokens, is the run of `workers`
send events, and no sequence of send and receive events takes the length
above `cap`. -/
theorem tick_effect (limit : Nat) (rps workers : Int) (cap n : Nat)
    (hcap : requestQueueCap limit rps workers = some cap) (h : n ≤ cap) :
    (cap : Int) = wrapInt64 (rps * workers) ∧
    (0 ≤ rps * workers → rps * workers < 2 ^ 63 → (cap : Int) = rps * workers) ∧
    (tick cap workers n).enqueued + (tick cap workers n).dropped = workers.toNat ∧
    (tick cap workers n).len = min cap (n + workers.toNat) ∧
    (tick cap workers n).dropped = (n + workers.toNat) - min cap (n + workers.toNat) ∧
    (tick cap workers n).len =
      (List.replicate workers.toNat QueueEvent.send).foldl (queueStep cap) n ∧
    (∀ evs : List QueueEvent, queueRun cap evs ≤ cap) := by
  obtain ⟨a, b, c⟩ := tick_spec cap workers n h
  have hc := (requestQueueCap_eq limit rps workers cap hcap).1
  have d := tickLoop_len_eq_sends cap workers.toNat 0
    { len := n, enqueued := 0, dropped := 0 }
  refine ⟨hc, ?_, ?_, a, c, d, queueRun_le _⟩
  · intro h1 h2
    rw [hc]
    exact wrapInt64_of_range _ (by omega) h2
  · rw [b, c]
    omega

/-- C8 (witness). With `rps = 2` and `workers = 3` the capacity is 6; a
tick on a queue of length 5 enqueues one token and drops two. -/
theorem tick_effect_witness :
    (requestQueueCap limitExample 2 3 = some 6 ∧ 5 ≤ 6) ∧
    (tick 6 3 5).len = min 6 (5 + (3 : Int).toNat) ∧
    (tick 6 3 5).dropped = (5 + (3 : Int).toNat) - min 6 (5 + (3 : Int).toNat) :=
  ⟨⟨by decide, by decide⟩,
    (tick_effect limitExample 2 3 6 5 (by decide) (by decide)).2.2.2.1,
    (tick_effect limitExample 2 3 6 5 (by decide) (by decide)).2.2.2.2.1⟩

/-- C8 (counterexample). With `rps = 4` and `workers = 2^62 + 1` the
product `2^64 + 4` wraps to the capacity 4: a tick on the empty queue
leaves the length at 4, not at `min (rps * workers) (n + workers)`, which
is `2^62 + 1`. -/
theorem tick_capacity_wraps :
    requestQueueCap limitExample 4 (2 ^ 62 + 1) = some 4 ∧
    (tick 4 (2 ^ 62 + 1) 0).len = 4 ∧
    ¬ (((tick 4 (2 ^ 62 + 1) 0).len : Int) = min (4 * (2 ^ 62 + 1)) (0 + (2 ^ 62 + 1))) := by
  have hlen : (tick 4 (2 ^ 62 + 1) 0).len = 4 := by
    rw [(tick_spec 4 (2 ^ 62 + 1) 0 (by decide)).1]
    decide
  refine ⟨by decide, hlen, ?_⟩
  rw [hlen]
  decide

end GhostPacket
